import Mathlib

/-!
Verification development for the sunwalker-box rootfs engine
(`src/linux/rootfs.rs`): a shallow embedding of the symlink-safe path
resolver (`resolve_abs`, `resolve_abs_box_root`), the reset engine
(`reset`), the mount inventory (`list_child_mounts`) and the rootfs
constructor (`create_rootfs`), together with proofs of the spec's
testable properties about them.
-/

set_option maxRecDepth 8000

namespace SunwalkerRootfs

/-! ## Path resolver (`resolve_abs`, rootfs.rs lines 255-305)

Paths are modelled as lists of characters (the Rust code works on byte
vectors; all constants involved are ASCII so characters are a faithful
carrier).  The live filesystem enters `resolve_abs` only through
`std::fs::read_link`, which we model as a function `FS` from the
absolute path consulted to `some link_target` when `read_link`
succeeds, and `none` for any `read_link` failure (EINVAL when the path
is not a symlink, ENOENT when it does not exist, ...) - the Rust code
treats every failure alike (`if let Ok(link_target) = read_link(..)`).
-/

/-- A parsed path component, as produced by Rust's
`std::path::Path::components` on Unix: the root directory `/`, `.`,
`..`, or a normal name.  (`Component::Prefix` is unreachable on Unix.) -/
inductive Component
  | rootDir
  | curDir
  | parentDir
  | normal (part : List Char)
deriving DecidableEq

/-- The symlink view of the filesystem: `read_link` results.  `none`
models any `read_link` error (not a symlink, nonexistent path, ...). -/
abbrev FS := List Char → Option (List Char)

/-- The only error `resolve_abs` itself constructs:
`std::io::ErrorKind::FilesystemLoop`. -/
inductive ResolveError
  | filesystemLoop
deriving DecidableEq

/-- Split a character list on `/` separators (helper for
`parseComponents`). -/
def splitSlash : List Char → List (List Char)
  | [] => [[]]
  | c :: rest =>
    match splitSlash rest with
    | [] => [[]]
    | cur :: others => if c = '/' then [] :: cur :: others else (c :: cur) :: others

/-- Classify one non-empty chunk between slashes. -/
def toComponent (l : List Char) : Component :=
  if l = ['.'] then Component.curDir
  else if l = ['.', '.'] then Component.parentDir
  else Component.normal l

/-- Rust's `Path::components` for a Unix path: a leading `/` yields `RootDir`,
empty chunks (from repeated slashes) disappear, `.` and `..` become
`CurDir`/`ParentDir`.  (Rust additionally drops interior `CurDir`
components; since `resolve_abs` treats `CurDir` as a no-op the two
readings resolve identically.) -/
def parseComponents (p : List Char) : List Component :=
  let parts := ((splitSlash p).filter (fun l => l ≠ [])).map toComponent
  match p with
  | '/' :: _ => Component.rootDir :: parts
  | _ => parts

/-- Model of `acc.truncate(acc.iter().rposition(|&r| r == b'/').unwrap())`: cut
the accumulator back to just before its last `/`.  (When `acc` holds no
slash the Rust code would panic; every use in `resolve_abs` is guarded
by `acc.len() > root.len()` with a slash-carrying root, which keeps a
slash in `acc`, so that case is unreachable there; we return `[]`.) -/
def dropLastSegment (acc : List Char) : List Char :=
  ((acc.reverse.dropWhile (fun c => c != '/')).drop 1).reverse

/-- The component loop of `resolve_abs` (rootfs.rs lines 264-295),
abstracted over the action `resolveLink` taken when `read_link`
succeeds on the freshly extended accumulator.  `resolveLink` receives
the link target and the accumulator truncated back to its value from
before the component was appended (`acc.truncate(cwd_acc_len)`). -/
def goComps (fs : FS) (root : List Char)
    (resolveLink : List Char → List Char → Except ResolveError (List Char)) :
    List Component → List Char → Except ResolveError (List Char)
  | [], acc => .ok acc
  | Component.rootDir :: rest, acc =>
      goComps fs root resolveLink rest (acc.take root.length)
  | Component.curDir :: rest, acc => goComps fs root resolveLink rest acc
  | Component.parentDir :: rest, acc =>
      goComps fs root resolveLink rest
        (if root.length < acc.length then dropLastSegment acc else acc)
  | Component.normal part :: rest, acc =>
      match fs (acc ++ '/' :: part) with
      | some link_target =>
          match resolveLink link_target acc with
          | .ok acc2 => goComps fs root resolveLink rest acc2
          | .error e => .error e
      | none => goComps fs root resolveLink rest (acc ++ '/' :: part)

/-- Function `resolve_abs` indexed by the remaining link budget
`255 - link_level`: a call at `link_level` has passed the entry check
`link_level > 255`, and recursing into a symlink target at
`link_level + 1` errors with `FilesystemLoop` exactly when the budget
is exhausted (`link_level = 255`), otherwise continues with budget one
smaller.  Structured this way the recursion is structural on the
budget, so the definition evaluates by kernel reduction. -/
def resolveGo (fs : FS) (root : List Char) :
    Nat → List Component → List Char → Except ResolveError (List Char)
  | 0 => goComps fs root (fun _ _ => .error ResolveError.filesystemLoop)
  | budget + 1 =>
      goComps fs root (fun link_target acc =>
        resolveGo fs root budget (parseComponents link_target) acc)

/-- Model of `resolve_abs(path, root, acc, link_level)` (rootfs.rs lines
255-297): fail with the filesystem-loop error when `link_level > 255`,
otherwise run the component loop with link budget `255 - link_level`. -/
def resolve_abs (fs : FS) (path : List Char) (root : List Char) (acc : List Char)
    (link_level : Nat) : Except ResolveError (List Char) :=
  if link_level > 255 then .error ResolveError.filesystemLoop
  else resolveGo fs root (255 - link_level) (parseComponents path) acc

/-- Model of `resolve_abs_box_root` (rootfs.rs lines 299-301): resolve against
the confined root `/newroot`, accumulator seeded at `/newroot/space`. -/
def resolve_abs_box_root (fs : FS) (path : List Char) :
    Except ResolveError (List Char) :=
  resolve_abs fs path ("/newroot".toList) ("/newroot/space".toList) 0

/-- Model of `resolve_abs_old_root` (rootfs.rs lines 303-305): resolve against
the pre-switch host root `/oldroot`. -/
def resolve_abs_old_root (fs : FS) (path : List Char) :
    Except ResolveError (List Char) :=
  resolve_abs fs path ("/oldroot".toList) ("/oldroot".toList) 0

/-- The purely textual resolution of a component list: what the
component loop computes when `read_link` never succeeds. -/
def textualResolve (root : List Char) : List Component → List Char → List Char
  | [], acc => acc
  | Component.rootDir :: rest, acc => textualResolve root rest (acc.take root.length)
  | Component.curDir :: rest, acc => textualResolve root rest acc
  | Component.parentDir :: rest, acc =>
      textualResolve root rest
        (if root.length < acc.length then dropLastSegment acc else acc)
  | Component.normal part :: rest, acc => textualResolve root rest (acc ++ '/' :: part)

/-! Concrete symlink arrangements for the loop-limit property. -/

/-- A single self-referential symlink: `/newroot/x -> /x`, which
re-resolves to `/newroot/x` forever. -/
def cycleFS : FS := fun p =>
  if p = "/newroot/x".toList then some ("/x".toList) else none

/-- Name of the `k`-th link in a chain: `a` repeated `k + 1` times. -/
def chainName (k : Nat) : List Char := List.replicate (k + 1) 'a'

/-- A chain of `n` symlinks under `/newroot`: link `k` (named
`chainName k`, for `k < n - 1`) points at link `k + 1`; the last link
points at the plain file `/t`. -/
def chainFS (n : Nat) : FS := fun p =>
  let rest := p.drop 9
  if p.take 9 == "/newroot/".toList && !rest.isEmpty && rest.all (fun c => c == 'a') then
    let k := rest.length - 1
    if k + 1 < n then some ('/' :: chainName (k + 1))
    else if k + 1 = n then some ("/t".toList)
    else none
  else none

example : parseComponents ("/../a/./b//c".toList) =
    [Component.rootDir, Component.parentDir, Component.normal ['a'],
     Component.curDir, Component.normal ['b'], Component.normal ['c']] := by decide

example : resolve_abs_box_root (fun _ => none) ("/../../x".toList) =
    .ok ("/newroot/x".toList) := rfl

example : resolve_abs_box_root (fun _ => none) ("a/../../../b".toList) =
    .ok ("/newroot/b".toList) := rfl

example : resolve_abs_box_root cycleFS ("/x".toList) =
    .error ResolveError.filesystemLoop := rfl

example : resolve_abs_box_root (chainFS 3) ("/a".toList) =
    .ok ("/newroot/t".toList) := rfl

/-! ## Resolver invariant: the accumulator always extends the declared root -/

/-- The accumulator invariant maintained by `resolve_abs`: the declared
root is a prefix of the accumulator, and whatever follows it starts
with a slash (or is empty). -/
def AccInv (root acc : List Char) : Prop :=
  ∃ rest, acc = root ++ rest ∧ (rest = [] ∨ rest.head? = some '/')

lemma dropWhile_ne_append {l₁ l₂ : List Char} (h : '/' ∈ l₁) :
    (l₁ ++ l₂).dropWhile (fun c => c != '/') = l₁.dropWhile (fun c => c != '/') ++ l₂ := by
  induction l₁ with
  | nil => cases h
  | cons c t ih =>
    by_cases hc : c = '/'
    · subst hc; simp [List.dropWhile_cons]
    · have ht : '/' ∈ t := by
        rcases List.mem_cons.mp h with h | h
        · exact absurd h.symm hc
        · exact h
      simp only [List.cons_append, List.dropWhile_cons]
      have hb : (c != '/') = true := by simpa using hc
      simp [hb, ih ht]

lemma dropWhile_ne_head {l : List Char} (h : '/' ∈ l) :
    ∃ t, l.dropWhile (fun c => c != '/') = '/' :: t := by
  induction l with
  | nil => cases h
  | cons c rest ih =>
    by_cases hc : c = '/'
    · subst hc; exact ⟨rest, by simp [List.dropWhile_cons]⟩
    · have hr : '/' ∈ rest := by
        rcases List.mem_cons.mp h with h | h
        · exact absurd h.symm hc
        · exact h
      rcases ih hr with ⟨t, ht⟩
      refine ⟨t, ?_⟩
      have hb : (c != '/') = true := by simpa using hc
      simp [List.dropWhile_cons, hb, ht]

/-- A parent-directory pop removes exactly the accumulator's final
slash-free segment together with its preceding slash. -/
lemma dropLastSegment_spec {acc : List Char} (h : '/' ∈ acc) :
    ∃ seg, acc = dropLastSegment acc ++ '/' :: seg ∧ '/' ∉ seg := by
  have hrev : '/' ∈ acc.reverse := List.mem_reverse.mpr h
  rcases dropWhile_ne_head hrev with ⟨t, ht⟩
  have hw : acc.reverse.takeWhile (fun c => c != '/') ++ '/' :: t = acc.reverse := by
    rw [← ht]
    exact List.takeWhile_append_dropWhile _ _
  have hds : dropLastSegment acc = t.reverse := by
    simp [dropLastSegment, ht]
  refine ⟨(acc.reverse.takeWhile (fun c => c != '/')).reverse, ?_, ?_⟩
  · have hacc : acc =
        t.reverse ++ '/' :: (acc.reverse.takeWhile (fun c => c != '/')).reverse := by
      conv_lhs => rw [← List.reverse_reverse acc, ← hw]
      simp
    rw [hds]
    exact hacc
  · intro hmem
    have hmem2 : '/' ∈ acc.reverse.takeWhile (fun c => c != '/') :=
      List.mem_reverse.mp hmem
    have := List.mem_takeWhile_imp hmem2
    simp at this

/-- The parent-directory pop preserves the accumulator invariant and
never shrinks past the root. -/
lemma dropLastSegment_inv {root rest : List Char} (hhead : rest.head? = some '/') :
    ∃ rest2, dropLastSegment (root ++ rest) = root ++ rest2 ∧
      (rest2 = [] ∨ rest2.head? = some '/') ∧ rest2.IsPrefix rest := by
  rcases rest with _ | ⟨c, r2⟩
  · cases hhead
  · have hc : c = '/' := by simpa using hhead
    subst hc
    have hm : '/' ∈ ('/' :: r2 : List Char) := List.mem_cons_self _ _
    have hmr : '/' ∈ ('/' :: r2 : List Char).reverse := List.mem_reverse.mpr hm
    rcases dropWhile_ne_head hmr with ⟨t, ht⟩
    have hdw : ((root ++ '/' :: r2).reverse).dropWhile (fun c => c != '/') =
        '/' :: t ++ root.reverse := by
      rw [List.reverse_append, dropWhile_ne_append hmr, ht]
    have hform : dropLastSegment (root ++ '/' :: r2) = root ++ t.reverse := by
      simp only [dropLastSegment]
      rw [hdw]
      simp
    have hw : ('/' :: r2 : List Char).reverse.takeWhile (fun c => c != '/') ++ '/' :: t =
        ('/' :: r2 : List Char).reverse := by
      rw [← ht]
      exact List.takeWhile_append_dropWhile _ _
    have hpref : ('/' :: r2 : List Char) = t.reverse ++
        ('/' :: (('/' :: r2 : List Char).reverse.takeWhile (fun c => c != '/')).reverse) := by
      conv_lhs => rw [← List.reverse_reverse ('/' :: r2 : List Char), ← hw]
      simp
    refine ⟨t.reverse, hform, ?_, ⟨_, hpref.symm⟩⟩
    rcases ht2 : t.reverse with _ | ⟨d, t2⟩
    · exact Or.inl rfl
    · right
      have hpref2 := hpref
      rw [ht2] at hpref2
      have hd : '/' = d := by
        have := congrArg List.head? hpref2
        simpa using this
      simp [← hd]

lemma accInv_append_normal {root rest : List Char} (part : List Char)
    (h : rest = [] ∨ rest.head? = some '/') :
    ∃ rest2, (root ++ rest) ++ '/' :: part = root ++ rest2 ∧
      (rest2 = [] ∨ rest2.head? = some '/') := by
  refine ⟨rest ++ '/' :: part, by rw [List.append_assoc], Or.inr ?_⟩
  rcases h with h | h
  · subst h; rfl
  · rcases rest with _ | ⟨c, r2⟩
    · cases h
    · simpa using h

/-- The component loop preserves the accumulator invariant, provided
the symlink-recursion action does. -/
lemma goComps_inv {fs : FS} {root : List Char}
    {RL : List Char → List Char → Except ResolveError (List Char)}
    (hRL : ∀ tgt a r, AccInv root a → RL tgt a = .ok r → AccInv root r) :
    ∀ comps acc res, AccInv root acc →
      goComps fs root RL comps acc = .ok res → AccInv root res := by
  intro comps
  induction comps with
  | nil =>
    intro acc res h hres
    simp only [goComps] at hres
    cases hres
    exact h
  | cons c rest ih =>
    intro acc res h hres
    rcases h with ⟨r, hacc, hr⟩
    cases c with
    | rootDir =>
      simp only [goComps] at hres
      refine ih _ res ⟨[], ?_, Or.inl rfl⟩ hres
      rw [hacc, List.take_left]
      simp
    | curDir =>
      simp only [goComps] at hres
      exact ih _ res ⟨r, hacc, hr⟩ hres
    | parentDir =>
      simp only [goComps] at hres
      by_cases hlen : root.length < acc.length
      · rw [if_pos hlen] at hres
        have hne : r ≠ [] := by
          intro hnil
          rw [hacc, hnil] at hlen
          simp at hlen
        have hhead : r.head? = some '/' := by
          rcases hr with h | h
          · exact absurd h hne
          · exact h
        rcases @dropLastSegment_inv root r hhead with ⟨r2, hform, hr2, _⟩
        rw [hacc] at hres
        rw [hform] at hres
        exact ih _ res ⟨r2, rfl, hr2⟩ hres
      · rw [if_neg hlen] at hres
        exact ih _ res ⟨r, hacc, hr⟩ hres
    | normal part =>
      simp only [goComps] at hres
      split at hres
      next link_target hfs =>
        split at hres
        next acc2 hrl =>
          have h2 := hRL link_target acc acc2 ⟨r, hacc, hr⟩ hrl
          exact ih _ res h2 hres
        next e hrl => cases hres
      next hfs =>
        rcases @accInv_append_normal root r part hr with ⟨r2, hform, hr2⟩
        rw [hacc] at hres
        rw [hform] at hres
        exact ih _ res ⟨r2, rfl, hr2⟩ hres

/-- The budget-indexed resolver preserves the accumulator invariant. -/
lemma resolveGo_inv {fs : FS} {root : List Char} :
    ∀ budget comps acc res, AccInv root acc →
      resolveGo fs root budget comps acc = .ok res → AccInv root res := by
  intro budget
  induction budget with
  | zero =>
    intro comps acc res h hres
    exact goComps_inv (fun tgt a r _ h' => by cases h') comps acc res h hres
  | succ n ih =>
    intro comps acc res h hres
    exact goComps_inv (fun tgt a r ha h' => ih _ a r ha h') comps acc res h hres

/-- C1: for every input path (in particular paths with arbitrarily many
leading `..` components), `resolve_abs_box_root` only returns paths
that begin with the declared root prefix `/newroot`; a parent-directory
component pops at most one trailing segment of the accumulator and
never shrinks it past the declared root prefix; a root-directory
component truncates the accumulator back to exactly that prefix. -/
theorem resolve_abs_box_root_confined :
    (∀ (fs : FS) (p res : List Char), resolve_abs_box_root fs p = .ok res →
        ("/newroot".toList).IsPrefix res)
  ∧ (∀ acc : List Char, AccInv ("/newroot".toList) acc →
        ("/newroot".toList).length < acc.length →
        ("/newroot".toList).IsPrefix (dropLastSegment acc) ∧
        ∃ seg, acc = dropLastSegment acc ++ '/' :: seg ∧ '/' ∉ seg)
  ∧ (∀ acc : List Char, AccInv ("/newroot".toList) acc →
        acc.take (("/newroot".toList).length) = "/newroot".toList) := by
  have hroot : '/' ∈ ("/newroot".toList) := by decide
  refine ⟨?_, ?_, ?_⟩
  · intro fs p res hres
    simp only [resolve_abs_box_root, resolve_abs] at hres
    norm_num at hres
    have hseed : AccInv ("/newroot".toList) ("/newroot/space".toList) :=
      ⟨"/space".toList, by decide, Or.inr (by decide)⟩
    rcases resolveGo_inv 255 (parseComponents p) _ res hseed hres with ⟨r, hacc, _⟩
    exact ⟨r, hacc.symm⟩
  · intro acc hinv hlen
    rcases hinv with ⟨r, hacc, hr⟩
    have hne : r ≠ [] := by
      intro hnil
      rw [hacc, hnil] at hlen
      simp at hlen
    have hhead : r.head? = some '/' := by
      rcases hr with h | h
      · exact absurd h hne
      · exact h
    constructor
    · rcases @dropLastSegment_inv ("/newroot".toList) r hhead with ⟨r2, hform, _, _⟩
      rw [hacc, hform]
      exact ⟨r2, rfl⟩
    · refine dropLastSegment_spec ?_
      rw [hacc]
      exact List.mem_append.mpr (Or.inl hroot)
  · intro acc hinv
    rcases hinv with ⟨r, hacc, _⟩
    rw [hacc, List.take_left]

/-- Witness for C1 at concrete inputs: a path with three leading `..`
components resolves inside `/newroot`, and the parent-pop/root-truncate
facts hold at the seed accumulator `/newroot/space`. -/
theorem resolve_abs_box_root_confined_witness :
    ("/newroot".toList).IsPrefix ("/newroot/etc/passwd".toList)
  ∧ ("/newroot".toList).IsPrefix (dropLastSegment ("/newroot/space".toList))
  ∧ ("/newroot/space".toList).take (("/newroot".toList).length) = "/newroot".toList := by
  have hinv : AccInv ("/newroot".toList) ("/newroot/space".toList) :=
    ⟨"/space".toList, by decide, Or.inr (by decide)⟩
  refine ⟨?_, ?_, ?_⟩
  · exact resolve_abs_box_root_confined.1 (fun _ => none)
      ("/../../../etc/passwd".toList) ("/newroot/etc/passwd".toList) rfl
  · exact (resolve_abs_box_root_confined.2.1 ("/newroot/space".toList) hinv
      (by decide)).1
  · exact resolve_abs_box_root_confined.2.2 ("/newroot/space".toList) hinv

/-- C3: a chain of exactly 255 symlinks resolves successfully; a chain
of 256 symlinks, or a cyclic chain, fails with the filesystem-loop
error; passing a recursion level above the 255 cap into `resolve_abs`
is itself the loop failure. -/
theorem resolve_abs_symlink_loop_cap :
    resolve_abs_box_root (chainFS 255) ("/a".toList) = .ok ("/newroot/t".toList)
  ∧ resolve_abs_box_root (chainFS 256) ("/a".toList) = .error ResolveError.filesystemLoop
  ∧ resolve_abs_box_root cycleFS ("/x".toList) = .error ResolveError.filesystemLoop
  ∧ (∀ (fs : FS) (p root acc : List Char) (lvl : Nat), lvl > 255 →
      resolve_abs fs p root acc lvl = .error ResolveError.filesystemLoop) := by
  refine ⟨rfl, rfl, rfl, ?_⟩
  intro fs p root acc lvl hlvl
  simp [resolve_abs, hlvl]

/-- Witness for C3's capped-level clause at level 256. -/
theorem resolve_abs_symlink_loop_cap_witness :
    resolve_abs (fun _ => none) ("/a".toList) ("/newroot".toList)
      ("/newroot/space".toList) 256 = .error ResolveError.filesystemLoop :=
  resolve_abs_symlink_loop_cap.2.2.2 (fun _ => none) ("/a".toList)
    ("/newroot".toList) ("/newroot/space".toList) 256 (by decide)

/-- When `read_link` never succeeds, the component loop is the purely
textual resolution and always succeeds. -/
lemma goComps_none_eq_textual {root : List Char}
    {RL : List Char → List Char → Except ResolveError (List Char)} :
    ∀ comps acc, goComps (fun _ => none) root RL comps acc =
      .ok (textualResolve root comps acc) := by
  intro comps
  induction comps with
  | nil => intro acc; simp [goComps, textualResolve]
  | cons c rest ih =>
    intro acc
    cases c with
    | rootDir => simp [goComps, textualResolve, ih]
    | curDir => simp [goComps, textualResolve, ih]
    | parentDir => simp [goComps, textualResolve, ih]
    | normal part => simp [goComps, textualResolve, ih]

/-- C10: `resolve_abs` can fail only with the filesystem-loop error;
when `read_link` fails on a newly appended component (in particular for
nonexistent paths) the failure is swallowed and the component is kept
as a literal segment, so resolving a path that exists nowhere succeeds
and returns the textually built path. -/
theorem resolve_abs_only_loop_error :
    (∀ (fs : FS) (p root acc : List Char) (lvl : Nat) (e : ResolveError),
        resolve_abs fs p root acc lvl = .error e → e = ResolveError.filesystemLoop)
  ∧ (∀ p : List Char, resolve_abs_box_root (fun _ => none) p =
        .ok (textualResolve ("/newroot".toList) (parseComponents p)
          ("/newroot/space".toList)))
  ∧ (∀ (fs : FS) (root : List Char)
        (RL : List Char → List Char → Except ResolveError (List Char))
        (part : List Char) (rest : List Component) (acc : List Char),
        fs (acc ++ '/' :: part) = none →
        goComps fs root RL (Component.normal part :: rest) acc =
          goComps fs root RL rest (acc ++ '/' :: part)) := by
  refine ⟨?_, ?_, ?_⟩
  · intro fs p root acc lvl e _
    cases e
    rfl
  · intro p
    simp only [resolve_abs_box_root, resolve_abs]
    norm_num
    exact goComps_none_eq_textual (parseComponents p) ("/newroot/space".toList)
  · intro fs root RL part rest acc h
    simp [goComps, h]

/-- Witness for C10 at concrete inputs: a nonexistent path resolves to
its textual composition, and the literal-segment equation holds for a
concrete non-symlink component. -/
theorem resolve_abs_only_loop_error_witness :
    ResolveError.filesystemLoop = ResolveError.filesystemLoop
  ∧ resolve_abs_box_root (fun _ => none) ("/no/such/file".toList) =
      .ok (textualResolve ("/newroot".toList)
        (parseComponents ("/no/such/file".toList)) ("/newroot/space".toList))
  ∧ goComps (fun _ => none) ("/newroot".toList) (fun _ _ => .error ResolveError.filesystemLoop)
      [Component.normal ("f".toList)] ("/newroot/space".toList) =
      goComps (fun _ => none) ("/newroot".toList) (fun _ _ => .error ResolveError.filesystemLoop)
      [] ("/newroot/space".toList ++ '/' :: "f".toList) := by
  refine ⟨?_, ?_, ?_⟩
  · exact resolve_abs_only_loop_error.1 cycleFS ("/x".toList) ("/newroot".toList)
      ("/newroot/space".toList) 0 ResolveError.filesystemLoop rfl
  · exact resolve_abs_only_loop_error.2.1 ("/no/such/file".toList)
  · exact resolve_abs_only_loop_error.2.2 (fun _ => none) ("/newroot".toList)
      (fun _ _ => .error ResolveError.filesystemLoop) ("f".toList) []
      ("/newroot/space".toList) rfl

/-! ## Reset engine and rootfs construction (rootfs.rs lines 9-253)

The world visible to `reset` and `create_rootfs` is modelled as
- the mount table's target column, in table order (`/proc/self/mounts`
  rows; mounting appends a row, unmounting removes the most recent row
  for the target), and
- the directory entries of `/newroot/dev/pts`.
Filesystem names are byte strings that may or may not be valid UTF-8;
we model them by `FsName`.  `mkdir`/`chown`/`chmod` calls that cannot
fail in context (they run beneath the freshly mounted tmpfs) are
recorded only through the event trace where relevant. -/

/-- A directory-entry name as returned by the OS: either valid UTF-8 or
not (`OsString::into_string` fails on the latter). -/
inductive FsName
  | utf8 (s : String)
  | nonUtf8 (bytes : List Nat)
deriving DecidableEq

/-- Filesystem/mount syscalls issued by the engine, for trace-level
claims. -/
inductive Event
  | mkdir (path : String)
  | touch (path : String)
  | bindMount (source target : String)
  | bindMountRec (source target : String)
  | remountRO (path : String)
  | symlink (target dest : String)
  | umount (path : String)
  | mountTmpfs (path opts : String)
deriving DecidableEq

/-- Relevant `std::io::ErrorKind` values for `umount`. -/
inductive IOErrorKind
  | invalidInput
  | notFound
  | permissionDenied
  | resourceBusy
deriving DecidableEq

/-- The error `reset` propagates, with operation and path context
(`with_context(|| format!("Failed to unmount {path}"))`). -/
inductive ResetError
  | umountFailed (path : String) (e : IOErrorKind)
deriving DecidableEq

/-- The world state `reset` operates on. -/
structure World where
  /-- Target paths of the mount table, in table order (parents listed
  before children; a new mount appends a row). -/
  mounts : List String
  /-- Directory entries of `/newroot/dev/pts`. -/
  pts : List FsName
deriving DecidableEq

/-- Model of `RootfsState` (rootfs.rs lines 14-16): multiplicity of each mount
target recorded at `create_rootfs` completion, modelled as its count
function. -/
structure RootfsState where
  mount_points : String → Nat

/-- Model of `DiskQuotas` (rootfs.rs lines 9-12). -/
structure DiskQuotas where
  space : Nat
  max_inodes : Nat

/-- Rust's `str::starts_with`, as a computation on the underlying
character lists. -/
def strStartsWith (pre s : String) : Bool := pre.toList.isPrefixOf s.toList

/-- Model of `list_child_mounts(prefix)` (rootfs.rs lines 237-253): the mount
targets beginning with `prefix`, in table order.  (The Rust code parses
each `/proc/self/mounts` line and takes the second field; the table is
modelled directly by its target column.) -/
def list_child_mounts (pre : String) (w : World) : List String :=
  w.mounts.filter (fun p => strStartsWith pre p)

/-- The whitelist test of `reset` (rootfs.rs lines 159-162): `/proc`,
everything below `/proc/`, and `/dev/mqueue` are never unmounted. -/
def excludedFromReset (p : String) : Bool :=
  p == "/newroot/proc" || strStartsWith "/newroot/proc/" p || p == "/newroot/dev/mqueue"

/-- The marking loop of `reset` (rootfs.rs lines 156-170): walk the
current mounts; skip whitelisted paths; if the remaining multiplicity
for a path is zero mark it for unmounting, otherwise decrement the
(local) multiplicity.  Returns the marked paths in discovery order
together with the final local multiplicity map. -/
def resetMark : (String → Nat) → List String → List String × (String → Nat)
  | counts, [] => ([], counts)
  | counts, p :: rest =>
    if excludedFromReset p then resetMark counts rest
    else if counts p = 0 then
      ((resetMark counts rest).1.cons p, (resetMark counts rest).2)
    else resetMark (fun q => if q = p then counts q - 1 else counts q) rest

/-- Remove the most recently mounted row for target `p` (what
`umount(2)` does when the same target is mounted several times). -/
def eraseLast (l : List String) (p : String) : List String :=
  (l.reverse.erase p).reverse

/-- Model of `system::umount`: removes the latest mount at `p`; fails with
EINVAL (`ErrorKind::InvalidInput`) when `p` is not a mount point. -/
def umountSys (w : World) (p : String) : Except IOErrorKind World :=
  if p ∈ w.mounts then .ok { w with mounts := eraseLast w.mounts p }
  else .error IOErrorKind.invalidInput

/-- The unmount loop of `reset` (rootfs.rs lines 171-173): unmount each
path in turn, aborting with path context on failure; records the issued
calls. -/
def umountAll : World → List String → Except ResetError (World × List Event)
  | w, [] => .ok (w, [])
  | w, p :: rest =>
    match umountSys w p with
    | .ok w2 =>
      match umountAll w2 rest with
      | .ok (w3, evs) => .ok (w3, Event.umount p :: evs)
      | .error e => .error e
    | .error e => .error (ResetError.umountFailed p e)

/-- Mounting on a target appends a mount-table row. -/
def mountOn (w : World) (target : String) : World :=
  { w with mounts := w.mounts ++ [target] }

/-- The stale-unmount recovery of `reset` (rootfs.rs lines 208-214):
given the result of unmounting the public-facing target, treat EINVAL
("not currently a mountpoint") as success with the world unchanged, and
surface every other failure with path context. -/
def staleUmount (res : Except IOErrorKind World) (w : World) (path : String) :
    Except ResetError World :=
  match res with
  | .ok w2 => .ok w2
  | .error e =>
    if e = IOErrorKind.invalidInput then .ok w
    else .error (ResetError.umountFailed path e)

/-- One iteration of the `/dev/shm`-`/tmp` loop of `reset` (rootfs.rs
lines 192-217): create and prepare the quota-backed subdirectory
`orig` (mkdir/chown/chmod always succeed beneath the freshly mounted
tmpfs and do not affect the mount table), unmount any stale bind mount
at the public target tolerating "not a mountpoint", and bind-mount
`orig` onto the public target. -/
def remountPublic (w : World) (path orig : String) :
    Except ResetError (World × List Event) :=
  match staleUmount (umountSys w path) w path with
  | .ok w2 => .ok (mountOn w2 path, [Event.umount path, Event.bindMount orig path])
  | .error e => .error e

/-- Model of `file_name.parse::<u64>()`: Rust's u64 parser accepts an optional
leading `+`, then one or more ASCII digits, value below `2 ^ 64`. -/
def parseU64 (s : String) : Option Nat :=
  let digits := match s.toList with
    | '+' :: rest => rest
    | l => l
  if digits ≠ [] ∧ digits.all (fun c => c.isDigit) then
    let v := digits.foldl (fun acc c => acc * 10 + (c.toNat - 48)) 0
    if v < 2 ^ 64 then some v else none
  else none

/-- The pseudoterminal cleanup of `reset` (rootfs.rs lines 222-232):
delete every entry of `/newroot/dev/pts` whose name decodes as UTF-8
and parses as a `u64`; entries failing the decode or the parse are
silently kept (`if let Ok(file_name) = entry.file_name().into_string()`). -/
def ptsClean (pts : List FsName) : List FsName :=
  pts.filter (fun n =>
    match n with
    | FsName.utf8 s => !(parseU64 s).isSome
    | FsName.nonUtf8 _ => true)

/-- Model of `reset(state, quotas)` (rootfs.rs lines 150-235).  Returns the
final world, the state as the caller sees it afterwards (the Rust code
takes `&RootfsState` and copies the counts into a local map before
decrementing), and the trace of mount-affecting syscalls. -/
def reset (state : RootfsState) (quotas : DiskQuotas) (w : World) :
    Except ResetError (World × RootfsState × List Event) :=
  let local_counts : String → Nat := fun p => state.mount_points p
  let current := list_child_mounts "/newroot/" w
  let marked := (resetMark local_counts current).1
  match umountAll w marked.reverse with
  | .error e => .error e
  | .ok (w1, ev1) =>
    let w2 := mountOn w1 "/newroot/space"
    let tmpfsEv := Event.mountTmpfs "/newroot/space"
      ("size=" ++ toString quotas.space ++ ",nr_inodes=" ++ toString quotas.max_inodes)
    match remountPublic w2 "/newroot/dev/shm" "/newroot/space/.shm" with
    | .error e => .error e
    | .ok (w3, ev3) =>
      match remountPublic w3 "/newroot/tmp" "/newroot/space/.tmp" with
      | .error e => .error e
      | .ok (w4, ev4) =>
        .ok ({ w4 with pts := ptsClean w4.pts }, state,
          ev1 ++ tmpfsEv :: (ev3 ++ ev4))

/-- The baseline snapshot taken at the end of `create_rootfs`
(rootfs.rs lines 90-97): the multiplicity of each target among the
current mounts under `/newroot/`. -/
def baselineOf (w : World) : RootfsState :=
  ⟨fun p => (list_child_mounts "/newroot/" w).count p⟩

/-- Iterated reset (for the any-number-of-consecutive-calls property). -/
def resetIter (st : RootfsState) (q : DiskQuotas) : Nat → World → Except ResetError World
  | 0, w => .ok w
  | n + 1, w =>
    match reset st q w with
    | .ok (w2, _, _) => resetIter st q n w2
    | .error e => .error e

/-! ### `create_rootfs` (rootfs.rs lines 18-98) -/

/-- What the image contains at one top-level name. -/
inductive EntryKind
  | dir
  | file
  | symlink (target : String)
deriving DecidableEq

/-- A top-level entry of the source image. -/
structure ImgEntry where
  name : FsName
  kind : EntryKind
deriving DecidableEq

/-- The error of `create_rootfs`'s decode step
(`anyhow!("File name {name:?} is not UTF-8")`). -/
inductive CreateError
  | nameNotUtf8
deriving DecidableEq

/-- Processing of one image entry (rootfs.rs lines 32-71): decode the
name (failing on non-UTF-8), skip the reserved names, then either
recreate a symlink literally, or create a placeholder of matching kind,
bind-mount the source over it and remount it read-only. -/
def createEntryEvents (root : String) (e : ImgEntry) : Except CreateError (List Event) :=
  match e.name with
  | FsName.nonUtf8 _ => .error CreateError.nameNotUtf8
  | FsName.utf8 name =>
    if name ≠ "space" ∧ name ≠ "dev" ∧ name ≠ "proc" ∧ name ≠ "tmp" ∧ name ≠ "sys" then
      let source_path := root ++ "/" ++ name
      let target_path := "/newroot/" ++ name
      match e.kind with
      | EntryKind.symlink link_target => .ok [Event.symlink link_target target_path]
      | EntryKind.dir => .ok [Event.mkdir target_path,
          Event.bindMount source_path target_path, Event.remountRO target_path]
      | EntryKind.file => .ok [Event.touch target_path,
          Event.bindMount source_path target_path, Event.remountRO target_path]
    else .ok []

/-- Fold `createEntryEvents` over the image, stopping at the first
error. -/
def createEntriesEvents (root : String) : List ImgEntry → Except CreateError (List Event)
  | [] => .ok []
  | e :: rest =>
    match createEntryEvents root e with
    | .error err => .error err
    | .ok evs =>
      match createEntriesEvents root rest with
      | .error err => .error err
      | .ok evs2 => .ok (evs ++ evs2)

/-- Model of `create_rootfs(root)` (rootfs.rs lines 18-98) as its syscall trace:
make `/newroot`, process the image's top-level entries, create the four
ephemeral directories, and bind-mount `/dev` recursively, remounting it
read-only.  (`/space` and `/tmp` are deliberately left unmounted; the
final baseline snapshot is modelled by `baselineOf`.) -/
def create_rootfs (root : String) (entries : List ImgEntry) :
    Except CreateError (List Event) :=
  match createEntriesEvents root entries with
  | .error e => .error e
  | .ok evs => .ok (Event.mkdir "/newroot" :: evs ++
      [Event.mkdir "/newroot/space", Event.mkdir "/newroot/dev",
       Event.mkdir "/newroot/proc", Event.mkdir "/newroot/tmp",
       Event.bindMountRec "/dev" "/newroot/dev", Event.remountRO "/newroot/dev"])

/-- Does this event create or mount something at `p`? -/
def eventTouches (p : String) : Event → Bool
  | Event.mkdir path => path == p
  | Event.touch path => path == p
  | Event.bindMount _ target => target == p
  | Event.bindMountRec _ target => target == p
  | Event.remountRO path => path == p
  | Event.symlink _ dest => dest == p
  | Event.umount path => path == p
  | Event.mountTmpfs path _ => path == p

/-- Is this event a mount placed at `p`? -/
def mountsOnto (p : String) : Event → Bool
  | Event.bindMount _ target => target == p
  | Event.bindMountRec _ target => target == p
  | Event.mountTmpfs path _ => path == p
  | _ => false

/-! ### Lemmas about the marking loop -/

/-- Occurrences of `p` in the mount listing that are subject to
unmounting (zero when `p` is whitelisted). -/
def countNE (p : String) (cur : List String) : Nat :=
  if excludedFromReset p then 0 else cur.count p

lemma countNE_cons_ne {p q : String} (h : p ≠ q) (rest : List String) :
    countNE p (q :: rest) = countNE p rest := by
  by_cases hp : excludedFromReset p
  · simp [countNE, hp]
  · have hqp : (q == p) = false := by
      simp [beq_iff_eq]
      exact fun hc => h hc.symm
    simp [countNE, hp, List.count_cons, hqp]

lemma countNE_cons_excl {q : String} (hq : excludedFromReset q = true)
    (p : String) (rest : List String) : countNE p (q :: rest) = countNE p rest := by
  by_cases hpq : p = q
  · subst hpq; simp [countNE, hq]
  · exact countNE_cons_ne hpq rest

lemma countNE_cons_self {q : String} (hq : excludedFromReset q = false)
    (rest : List String) : countNE q (q :: rest) = countNE q rest + 1 := by
  simp [countNE, hq, List.count_cons]

/-- The multiplicity bookkeeping of the marking loop: each path is
marked exactly as often as its unmount-eligible occurrences exceed its
remaining baseline multiplicity. -/
lemma resetMark_count (cur : List String) : ∀ (counts : String → Nat) (p : String),
    ((resetMark counts cur).1).count p = countNE p cur - counts p := by
  induction cur with
  | nil =>
    intro counts p
    simp [resetMark, countNE]
  | cons q rest ih =>
    intro counts p
    by_cases hq : excludedFromReset q
    · have hstep : resetMark counts (q :: rest) = resetMark counts rest := by
        simp [resetMark, hq]
      rw [hstep, ih, countNE_cons_excl hq]
    · by_cases hc : counts q = 0
      · have hstep : (resetMark counts (q :: rest)).1 = q :: (resetMark counts rest).1 := by
          simp [resetMark, hq, hc]
        rw [hstep]
        by_cases hpq : p = q
        · subst hpq
          rw [List.count_cons_self, ih, countNE_cons_self (by simpa using hq), hc]
          omega
        · have hqp : (q == p) = false := by
            simp [beq_iff_eq]
            exact fun hcontra => hpq hcontra.symm
          rw [List.count_cons, hqp, ih, countNE_cons_ne hpq]
          simp
      · have hstep : resetMark counts (q :: rest) =
            resetMark (fun r => if r = q then counts r - 1 else counts r) rest := by
          simp [resetMark, hq, hc]
        rw [hstep, ih]
        by_cases hpq : p = q
        · subst hpq
          rw [countNE_cons_self (by simpa using hq)]
          simp only [if_pos]
          omega
        · rw [countNE_cons_ne hpq]
          simp [hpq]

/-- Marked paths come from the listing and are never whitelisted. -/
lemma resetMark_mem (cur : List String) : ∀ (counts : String → Nat) (p : String),
    p ∈ (resetMark counts cur).1 → p ∈ cur ∧ excludedFromReset p = false := by
  induction cur with
  | nil => intro counts p h; simp [resetMark] at h
  | cons q rest ih =>
    intro counts p h
    by_cases hq : excludedFromReset q
    · rw [show resetMark counts (q :: rest) = resetMark counts rest from by
        simp [resetMark, hq]] at h
      rcases ih counts p h with ⟨h1, h2⟩
      exact ⟨List.mem_cons_of_mem q h1, h2⟩
    · by_cases hc : counts q = 0
      · rw [show (resetMark counts (q :: rest)).1 = q :: (resetMark counts rest).1 from by
          simp [resetMark, hq, hc]] at h
        rcases List.mem_cons.mp h with h | h
        · subst h; exact ⟨List.mem_cons_self p rest, by simpa using hq⟩
        · rcases ih counts p h with ⟨h1, h2⟩
          exact ⟨List.mem_cons_of_mem q h1, h2⟩
      · rw [show resetMark counts (q :: rest) =
            resetMark (fun r => if r = q then counts r - 1 else counts r) rest from by
          simp [resetMark, hq, hc]] at h
        rcases ih _ p h with ⟨h1, h2⟩
        exact ⟨List.mem_cons_of_mem q h1, h2⟩

/-- The marked paths keep the listing's discovery order. -/
lemma resetMark_sublist (cur : List String) : ∀ (counts : String → Nat),
    List.Sublist (resetMark counts cur).1 cur := by
  induction cur with
  | nil => intro counts; simp [resetMark]
  | cons q rest ih =>
    intro counts
    by_cases hq : excludedFromReset q
    · rw [show resetMark counts (q :: rest) = resetMark counts rest from by
        simp [resetMark, hq]]
      exact List.Sublist.cons q (ih counts)
    · by_cases hc : counts q = 0
      · rw [show (resetMark counts (q :: rest)).1 = q :: (resetMark counts rest).1 from by
          simp [resetMark, hq, hc]]
        exact List.Sublist.cons₂ q (ih counts)
      · rw [show resetMark counts (q :: rest) =
            resetMark (fun r => if r = q then counts r - 1 else counts r) rest from by
          simp [resetMark, hq, hc]]
        exact List.Sublist.cons q (ih _)

/-- When every unmount-eligible multiplicity is covered by the local
counts (as on the listing the baseline was built from), nothing is
marked, and the counts retain exactly the uncovered remainder. -/
lemma resetMark_eq_of_le (cur : List String) : ∀ (counts : String → Nat),
    (∀ p, countNE p cur ≤ counts p) →
    resetMark counts cur = ([], fun p => counts p - countNE p cur) := by
  induction cur with
  | nil =>
    intro counts _
    simp only [resetMark]
    congr 1
    funext p
    simp [countNE]
  | cons q rest ih =>
    intro counts hle
    by_cases hq : excludedFromReset q
    · have hstep : resetMark counts (q :: rest) = resetMark counts rest := by
        simp [resetMark, hq]
      rw [hstep, ih counts (fun p => le_trans (le_of_eq (countNE_cons_excl hq p rest).symm) (hle p))]
      congr 1
      funext p
      rw [countNE_cons_excl hq]
    · have hcq : counts q ≠ 0 := by
        have := hle q
        rw [countNE_cons_self (by simpa using hq)] at this
        omega
      have hstep : resetMark counts (q :: rest) =
          resetMark (fun r => if r = q then counts r - 1 else counts r) rest := by
        simp [resetMark, hq, hcq]
      rw [hstep, ih _ ?hle2]
      case hle2 =>
        intro p
        by_cases hpq : p = q
        · subst hpq
          have := hle p
          rw [countNE_cons_self (by simpa using hq)] at this
          simp only [if_pos]
          omega
        · have := hle p
          rw [countNE_cons_ne hpq] at this
          simpa [hpq] using this
      congr 1
      funext p
      by_cases hpq : p = q
      · subst hpq
        rw [countNE_cons_self (by simpa using hq)]
        simp only [if_pos]
        omega
      · rw [countNE_cons_ne hpq]
        simp [hpq]

/-- The marking loop splits over appended listings. -/
lemma resetMark_append (xs ys : List String) : ∀ (counts : String → Nat),
    resetMark counts (xs ++ ys) =
      ((resetMark counts xs).1 ++ (resetMark (resetMark counts xs).2 ys).1,
       (resetMark (resetMark counts xs).2 ys).2) := by
  induction xs with
  | nil => intro counts; simp [resetMark]
  | cons q rest ih =>
    intro counts
    by_cases hq : excludedFromReset q
    · simp only [List.cons_append]
      rw [show resetMark counts (q :: (rest ++ ys)) = resetMark counts (rest ++ ys) from by
          simp [resetMark, hq],
        show resetMark counts (q :: rest) = resetMark counts rest from by
          simp [resetMark, hq]]
      exact ih counts
    · by_cases hc : counts q = 0
      · simp only [List.cons_append]
        rw [show resetMark counts (q :: (rest ++ ys)) =
              ((resetMark counts (rest ++ ys)).1.cons q, (resetMark counts (rest ++ ys)).2) from by
            simp [resetMark, hq, hc],
          show resetMark counts (q :: rest) =
              ((resetMark counts rest).1.cons q, (resetMark counts rest).2) from by
            simp [resetMark, hq, hc]]
        rw [ih counts]
        simp
      · simp only [List.cons_append]
        rw [show resetMark counts (q :: (rest ++ ys)) =
              resetMark (fun r => if r = q then counts r - 1 else counts r) (rest ++ ys) from by
            simp [resetMark, hq, hc],
          show resetMark counts (q :: rest) =
              resetMark (fun r => if r = q then counts r - 1 else counts r) rest from by
            simp [resetMark, hq, hc]]
        exact ih _

/-! ### Lemmas about unmounting -/

lemma eraseLast_not_mem {l : List String} {p : String} (h : p ∉ l) :
    eraseLast l p = l := by
  rw [eraseLast, List.erase_of_not_mem (fun hm => h (List.mem_reverse.mp hm)),
    List.reverse_reverse]

lemma eraseLast_append_right {l₁ l₂ : List String} {p : String} (h : p ∈ l₂) :
    eraseLast (l₁ ++ l₂) p = l₁ ++ eraseLast l₂ p := by
  simp only [eraseLast, List.reverse_append]
  rw [List.erase_append_left _ (List.mem_reverse.mpr h)]
  simp

lemma eraseLast_append_left {l₁ l₂ : List String} {p : String} (h : p ∉ l₂) :
    eraseLast (l₁ ++ l₂) p = eraseLast l₁ p ++ l₂ := by
  simp only [eraseLast, List.reverse_append]
  rw [List.erase_append_right _ (fun hm => h (List.mem_reverse.mp hm))]
  simp

lemma eraseLast_sublist (l : List String) (p : String) :
    List.Sublist (eraseLast l p) l := by
  have h2 := (List.erase_sublist p l.reverse).reverse
  simpa [eraseLast] using h2

lemma not_mem_eraseLast {x : String} {l : List String} (p : String) (h : x ∉ l) :
    x ∉ eraseLast l p :=
  fun hm => h ((eraseLast_sublist l p).subset hm)

lemma count_eraseLast_ne {x p : String} (h : x ≠ p) (l : List String) :
    (eraseLast l p).count x = l.count x := by
  simp [eraseLast, List.count_reverse, List.count_erase_of_ne h]

lemma count_eraseLast_self (l : List String) (p : String) :
    (eraseLast l p).count p = l.count p - 1 := by
  simp [eraseLast, List.count_reverse, List.count_erase_self]

/-- The combined effect of `reset`'s tolerated unmount at a public
target: remove the latest mount there when one exists, else leave the
table unchanged. -/
def eraseLastTol (l : List String) (p : String) : List String :=
  if p ∈ l then eraseLast l p else l

lemma eraseLastTol_not_mem {l : List String} {p : String} (h : p ∉ l) :
    eraseLastTol l p = l := by
  rw [eraseLastTol, if_neg h]

lemma eraseLastTol_append_left {l₁ l₂ : List String} {p : String} (h : p ∉ l₂) :
    eraseLastTol (l₁ ++ l₂) p = eraseLastTol l₁ p ++ l₂ := by
  by_cases h1 : p ∈ l₁
  · rw [eraseLastTol, if_pos (List.mem_append.mpr (Or.inl h1)), eraseLastTol, if_pos h1,
      eraseLast_append_left h]
  · have h12 : p ∉ l₁ ++ l₂ := by
      intro hm
      rcases List.mem_append.mp hm with hm | hm
      exacts [h1 hm, h hm]
    rw [eraseLastTol, if_neg h12, eraseLastTol, if_neg h1]

lemma eraseLastTol_append_right {l₁ l₂ : List String} {p : String} (h : p ∈ l₂) :
    eraseLastTol (l₁ ++ l₂) p = l₁ ++ eraseLastTol l₂ p := by
  rw [eraseLastTol, if_pos (List.mem_append.mpr (Or.inr h)), eraseLastTol, if_pos h,
    eraseLast_append_right h]

lemma eraseLastTol_sublist (l : List String) (p : String) :
    List.Sublist (eraseLastTol l p) l := by
  rw [eraseLastTol]
  split
  · exact eraseLast_sublist l p
  · exact List.Sublist.refl l

lemma not_mem_eraseLastTol {x : String} {l : List String} (p : String) (h : x ∉ l) :
    x ∉ eraseLastTol l p :=
  fun hm => h ((eraseLastTol_sublist l p).subset hm)

lemma count_eraseLastTol_ne {x p : String} (h : x ≠ p) (l : List String) :
    (eraseLastTol l p).count x = l.count x := by
  rw [eraseLastTol]
  split
  · exact count_eraseLast_ne h l
  · rfl

lemma count_eraseLastTol_self (l : List String) (p : String) :
    (eraseLastTol l p).count p = l.count p - 1 := by
  rw [eraseLastTol]
  split
  next h => exact count_eraseLast_self l p
  next h => rw [List.count_eq_zero.mpr h]

lemma umountSys_ok {w : World} {p : String} {w2 : World}
    (h : umountSys w p = .ok w2) :
    w2 = { w with mounts := eraseLast w.mounts p } ∧ p ∈ w.mounts := by
  rw [umountSys] at h
  split at h
  next hm => exact ⟨(Except.ok.injEq _ _).mp h.symm, hm⟩
  next hm => cases h

/-- A successful unmount loop issues exactly the `umount` calls for its
argument list, in order, and leaves the pts directory alone. -/
lemma umountAll_ok : ∀ {l : List String} {w w2 : World} {evs : List Event},
    umountAll w l = .ok (w2, evs) → evs = l.map Event.umount ∧ w2.pts = w.pts := by
  intro l
  induction l with
  | nil =>
    intro w w2 evs h
    simp only [umountAll] at h
    cases h
    exact ⟨rfl, rfl⟩
  | cons p rest ih =>
    intro w w2 evs h
    simp only [umountAll] at h
    split at h
    next w3 hu =>
      split at h
      next w4 evs2 hrest =>
        cases h
        rcases ih hrest with ⟨he, hp⟩
        rcases umountSys_ok hu with ⟨hw3, _⟩
        subst hw3
        exact ⟨by rw [he]; rfl, hp⟩
      next e hrest => cases h
    next e hu => cases h

/-- Every iteration of the `/dev/shm`-`/tmp` rebind succeeds in the
model, removing the latest stale mount at the target (if any) and
appending the fresh bind mount. -/
lemma remountPublic_eq (w : World) (path orig : String) :
    remountPublic w path orig =
      .ok ({ w with mounts := eraseLastTol w.mounts path ++ [path] },
        [Event.umount path, Event.bindMount orig path]) := by
  by_cases h : path ∈ w.mounts
  · simp [remountPublic, umountSys, staleUmount, mountOn, eraseLastTol, h]
  · simp [remountPublic, umountSys, staleUmount, mountOn, eraseLastTol, h]

/-- The mount table produced by a successful `reset` from the table
left by its unmounting phase. -/
def resetMounts (m : List String) : List String :=
  eraseLastTol (eraseLastTol m "/newroot/dev/shm") "/newroot/tmp" ++
    ["/newroot/space", "/newroot/dev/shm", "/newroot/tmp"]

/-- Once the unmount phase has succeeded, `reset` succeeds and its
world, returned state and trace are determined. -/
lemma reset_eq_of_phase1 {st : RootfsState} {q : DiskQuotas} {w w1 : World} {ev1 : List Event}
    (h : umountAll w (resetMark (fun p => st.mount_points p)
        (list_child_mounts "/newroot/" w)).1.reverse = .ok (w1, ev1)) :
    reset st q w = .ok ({ mounts := resetMounts w1.mounts, pts := ptsClean w1.pts }, st,
      ev1 ++ [Event.mountTmpfs "/newroot/space"
          ("size=" ++ toString q.space ++ ",nr_inodes=" ++ toString q.max_inodes),
        Event.umount "/newroot/dev/shm",
        Event.bindMount "/newroot/space/.shm" "/newroot/dev/shm",
        Event.umount "/newroot/tmp",
        Event.bindMount "/newroot/space/.tmp" "/newroot/tmp"]) := by
  have hshm : ("/newroot/dev/shm" : String) ∉ (["/newroot/space"] : List String) := by decide
  have htmp : ("/newroot/tmp" : String) ∉
      (["/newroot/space", "/newroot/dev/shm"] : List String) := by decide
  simp only [reset, h, remountPublic_eq, mountOn]
  have hmnt : eraseLastTol (eraseLastTol (w1.mounts ++ ["/newroot/space"]) "/newroot/dev/shm" ++
        ["/newroot/dev/shm"]) "/newroot/tmp" ++ ["/newroot/tmp"] = resetMounts w1.mounts := by
    rw [eraseLastTol_append_left hshm]
    rw [show eraseLastTol w1.mounts "/newroot/dev/shm" ++ ["/newroot/space"] ++
          ["/newroot/dev/shm"] =
        eraseLastTol w1.mounts "/newroot/dev/shm" ++
          ["/newroot/space", "/newroot/dev/shm"] from by simp]
    rw [eraseLastTol_append_left htmp]
    simp [resetMounts]
  rw [hmnt]
  simp

/-- Marking of the three paths `reset` itself remounts, for a local
multiplicity map that is exhausted at `/newroot/space`. -/
lemma resetMark_tail (c : String → Nat) (hs : c "/newroot/space" = 0) :
    (resetMark c ["/newroot/space", "/newroot/dev/shm", "/newroot/tmp"]).1 =
      "/newroot/space" ::
        ((if c "/newroot/dev/shm" = 0 then ["/newroot/dev/shm"] else []) ++
          (if c "/newroot/tmp" = 0 then ["/newroot/tmp"] else [])) := by
  have hexs : excludedFromReset "/newroot/space" = false := rfl
  have hexh : excludedFromReset "/newroot/dev/shm" = false := rfl
  have hext : excludedFromReset "/newroot/tmp" = false := rfl
  have hth : ¬ (("/newroot/tmp" : String) = "/newroot/dev/shm") := by decide
  by_cases hh : c "/newroot/dev/shm" = 0
  · by_cases ht : c "/newroot/tmp" = 0
    · simp [resetMark, hexs, hexh, hext, hs, hh, ht]
    · simp [resetMark, hexs, hexh, hext, hs, hh, ht]
  · by_cases ht : c "/newroot/tmp" = 0
    · simp [resetMark, hexs, hexh, hext, hs, hh, ht, hth]
    · simp [resetMark, hexs, hexh, hext, hs, hh, ht, hth]

/-- Unmounting a path whose most recent mount sits in the appended tail
of the table. -/
lemma umountSys_append_mem {tail : List String} {p : String} (v : List String)
    (pts : List FsName) (h : p ∈ tail) :
    umountSys ⟨v ++ tail, pts⟩ p = .ok (⟨v ++ eraseLast tail p, pts⟩ : World) := by
  rw [umountSys]
  rw [if_pos (List.mem_append.mpr (Or.inr h))]
  show Except.ok (⟨eraseLast (v ++ tail) p, pts⟩ : World) = _
  rw [eraseLast_append_right h]

lemma ptsClean_idem (pts : List FsName) : ptsClean (ptsClean pts) = ptsClean pts := by
  rw [ptsClean, ptsClean, List.filter_filter]
  congr 1
  funext n
  cases n
  · simp
  · simp

/-- C2: the marking phase of `reset` marks for unmounting only listed,
non-whitelisted mount targets whose remaining baseline multiplicity is
exhausted, decrementing the local multiplicity otherwise: each target
is marked exactly as often as its unmount-eligible occurrences exceed
the baseline count, so no path with unexhausted baseline multiplicity
is ever unmounted. -/
theorem reset_unmounts_only_exhausted :
    ∀ (st : RootfsState) (w : World),
      (∀ p ∈ (resetMark (fun p2 => st.mount_points p2)
          (list_child_mounts "/newroot/" w)).1,
        p ∈ list_child_mounts "/newroot/" w ∧ excludedFromReset p = false)
    ∧ ∀ p : String,
        ((resetMark (fun p2 => st.mount_points p2)
            (list_child_mounts "/newroot/" w)).1).count p =
          countNE p (list_child_mounts "/newroot/" w) - st.mount_points p := by
  intro st w
  constructor
  · intro p hp
    exact resetMark_mem _ _ p hp
  · intro p
    exact resetMark_count _ _ p

/-- Witness for C2: a baseline with one recorded `/newroot/a` mount and
a listing with two of them (plus the always-preserved mqueue mount)
marks `/newroot/a` exactly once. -/
theorem reset_unmounts_only_exhausted_witness :
    (("/newroot/a" : String) ∈ list_child_mounts "/newroot/"
        ⟨["/newroot/a", "/newroot/a", "/newroot/dev/mqueue"], []⟩ ∧
      excludedFromReset "/newroot/a" = false)
  ∧ ((resetMark (fun p2 => (⟨fun p3 => if p3 = "/newroot/a" then 1 else 0⟩ :
          RootfsState).mount_points p2)
        (list_child_mounts "/newroot/"
          ⟨["/newroot/a", "/newroot/a", "/newroot/dev/mqueue"], []⟩)).1).count "/newroot/a" =
      countNE "/newroot/a" (list_child_mounts "/newroot/"
        ⟨["/newroot/a", "/newroot/a", "/newroot/dev/mqueue"], []⟩) -
        (⟨fun p3 => if p3 = "/newroot/a" then 1 else 0⟩ :
          RootfsState).mount_points "/newroot/a" := by
  constructor
  · exact (reset_unmounts_only_exhausted
      ⟨fun p3 => if p3 = "/newroot/a" then 1 else 0⟩
      ⟨["/newroot/a", "/newroot/a", "/newroot/dev/mqueue"], []⟩).1 "/newroot/a" (by decide)
  · exact (reset_unmounts_only_exhausted
      ⟨fun p3 => if p3 = "/newroot/a" then 1 else 0⟩
      ⟨["/newroot/a", "/newroot/a", "/newroot/dev/mqueue"], []⟩).2 "/newroot/a"

/-- C6: a successful `reset` issues the unmount calls for the marked
paths in exactly the reverse of the order in which the mount inventory
listed them: its trace starts with the marked paths' `umount` events
reversed, and the marked paths themselves preserve the listing order
(parents before children). -/
theorem reset_umount_reverse_order :
    ∀ (st : RootfsState) (q : DiskQuotas) (w : World)
      (r : World × RootfsState × List Event),
      reset st q w = .ok r →
      List.Sublist (resetMark (fun p => st.mount_points p)
          (list_child_mounts "/newroot/" w)).1 (list_child_mounts "/newroot/" w)
      ∧ ∃ rest : List Event,
          r.2.2 = (((resetMark (fun p => st.mount_points p)
              (list_child_mounts "/newroot/" w)).1).map Event.umount).reverse ++ rest := by
  intro st q w r h
  refine ⟨resetMark_sublist _ _, ?_⟩
  simp only [reset] at h
  split at h
  next e hu => cases h
  next w1 ev1 hu =>
    simp only [remountPublic_eq] at h
    cases h
    rcases umountAll_ok hu with ⟨he, _⟩
    subst he
    exact ⟨_, by rw [List.map_reverse]⟩

/-- Witness for C6: with an empty baseline and a single stale mount the
trace opens with that path's unmount. -/
theorem reset_umount_reverse_order_witness :
    List.Sublist (resetMark (fun p => (⟨fun _ => 0⟩ : RootfsState).mount_points p)
        (list_child_mounts "/newroot/" ⟨["/newroot/old"], []⟩)).1
      (list_child_mounts "/newroot/" ⟨["/newroot/old"], []⟩)
    ∧ ∃ rest : List Event,
        ((⟨["/newroot/space", "/newroot/dev/shm", "/newroot/tmp"], []⟩,
          ⟨fun _ => 0⟩,
          [Event.umount "/newroot/old",
           Event.mountTmpfs "/newroot/space" "size=7,nr_inodes=9",
           Event.umount "/newroot/dev/shm",
           Event.bindMount "/newroot/space/.shm" "/newroot/dev/shm",
           Event.umount "/newroot/tmp",
           Event.bindMount "/newroot/space/.tmp" "/newroot/tmp"]) :
            World × RootfsState × List Event).2.2 =
        (((resetMark (fun p => (⟨fun _ => 0⟩ : RootfsState).mount_points p)
            (list_child_mounts "/newroot/" ⟨["/newroot/old"], []⟩)).1).map
              Event.umount).reverse ++ rest :=
  reset_umount_reverse_order ⟨fun _ => 0⟩ ⟨7, 9⟩ ⟨["/newroot/old"], []⟩
    (⟨["/newroot/space", "/newroot/dev/shm", "/newroot/tmp"], []⟩, ⟨fun _ => 0⟩,
      [Event.umount "/newroot/old",
       Event.mountTmpfs "/newroot/space" "size=7,nr_inodes=9",
       Event.umount "/newroot/dev/shm",
       Event.bindMount "/newroot/space/.shm" "/newroot/dev/shm",
       Event.umount "/newroot/tmp",
       Event.bindMount "/newroot/space/.tmp" "/newroot/tmp"]) rfl

/-- C7: during the shared-memory/temp rebind, a failing unmount of the
public target is treated as success exactly when the error is EINVAL
("not currently a mountpoint"); every other failure aborts with
operation-and-path context; and in the tolerated case the bind mount of
the quota-backed subdirectory still runs. -/
theorem reset_stale_umount_tolerance :
    (∀ (w : World) (path : String) (e : IOErrorKind),
        (∃ w2, staleUmount (.error e) w path = .ok w2) ↔ e = IOErrorKind.invalidInput)
  ∧ (∀ (w : World) (path : String) (e : IOErrorKind), e ≠ IOErrorKind.invalidInput →
        staleUmount (.error e) w path = .error (ResetError.umountFailed path e))
  ∧ (∀ (w : World) (path : String),
        staleUmount (.error IOErrorKind.invalidInput) w path = .ok w)
  ∧ (∀ (w : World) (path orig : String), path ∉ w.mounts →
        remountPublic w path orig =
          .ok (mountOn w path, [Event.umount path, Event.bindMount orig path])) := by
  refine ⟨?_, ?_, ?_, ?_⟩
  · intro w path e
    constructor
    · rintro ⟨w2, h2⟩
      by_contra hne
      simp [staleUmount, hne] at h2
    · rintro rfl
      exact ⟨w, by simp [staleUmount]⟩
  · intro w path e he
    simp [staleUmount, he]
  · intro w path
    simp [staleUmount]
  · intro w path orig h
    rw [remountPublic_eq, eraseLastTol_not_mem h]
    rfl

/-- Witness for C7 at concrete inputs: a non-EINVAL failure aborts with
path context, EINVAL is recovered, and the bind mount still runs on a
target that is not currently a mountpoint. -/
theorem reset_stale_umount_tolerance_witness :
    staleUmount (.error IOErrorKind.notFound) ⟨[], []⟩ "/newroot/tmp" =
      .error (ResetError.umountFailed "/newroot/tmp" IOErrorKind.notFound)
  ∧ staleUmount (.error IOErrorKind.invalidInput) ⟨[], []⟩ "/newroot/tmp" = .ok ⟨[], []⟩
  ∧ remountPublic ⟨[], []⟩ "/newroot/tmp" "/newroot/space/.tmp" =
      .ok (mountOn ⟨[], []⟩ "/newroot/tmp",
        [Event.umount "/newroot/tmp", Event.bindMount "/newroot/space/.tmp" "/newroot/tmp"]) := by
  refine ⟨?_, ?_, ?_⟩
  · exact reset_stale_umount_tolerance.2.1 ⟨[], []⟩ "/newroot/tmp" IOErrorKind.notFound
      (by decide)
  · exact reset_stale_umount_tolerance.2.2.1 ⟨[], []⟩ "/newroot/tmp"
  · exact reset_stale_umount_tolerance.2.2.2 ⟨[], []⟩ "/newroot/tmp" "/newroot/space/.tmp"
      (by decide)

/-- C9: `reset` never mutates the baseline `RootfsState` it receives -
it decrements only a local copy of the counts - so the state visible
after a call equals the input state, and any later call using the
returned state behaves exactly like a call with the original. -/
theorem reset_preserves_baseline :
    ∀ (st : RootfsState) (q : DiskQuotas) (w : World)
      (r : World × RootfsState × List Event),
      reset st q w = .ok r →
      r.2.1 = st ∧ ∀ (q2 : DiskQuotas) (w2 : World), reset r.2.1 q2 w2 = reset st q2 w2 := by
  intro st q w r h
  simp only [reset] at h
  split at h
  next e hu => cases h
  next w1 ev1 hu =>
    simp only [remountPublic_eq] at h
    cases h
    exact ⟨rfl, fun q2 w2 => rfl⟩

/-- Witness for C9 at a concrete first call after root construction. -/
theorem reset_preserves_baseline_witness :
    ((⟨["/newroot/space", "/newroot/dev/shm", "/newroot/tmp"], []⟩,
      (⟨fun _ => 0⟩ : RootfsState),
      [Event.mountTmpfs "/newroot/space" "size=104857600,nr_inodes=1000",
       Event.umount "/newroot/dev/shm",
       Event.bindMount "/newroot/space/.shm" "/newroot/dev/shm",
       Event.umount "/newroot/tmp",
       Event.bindMount "/newroot/space/.tmp" "/newroot/tmp"]) :
        World × RootfsState × List Event).2.1 = (⟨fun _ => 0⟩ : RootfsState) :=
  (reset_preserves_baseline ⟨fun _ => 0⟩ ⟨104857600, 1000⟩ ⟨[], []⟩
    (⟨["/newroot/space", "/newroot/dev/shm", "/newroot/tmp"], []⟩, ⟨fun _ => 0⟩,
      [Event.mountTmpfs "/newroot/space" "size=104857600,nr_inodes=1000",
       Event.umount "/newroot/dev/shm",
       Event.bindMount "/newroot/space/.shm" "/newroot/dev/shm",
       Event.umount "/newroot/tmp",
       Event.bindMount "/newroot/space/.tmp" "/newroot/tmp"]) rfl).1

lemma umountAll_cons_ok {w w2 w3 : World} {p : String} {rest : List String}
    {evs : List Event} (h1 : umountSys w p = .ok w2)
    (h2 : umountAll w2 rest = .ok (w3, evs)) :
    umountAll w (p :: rest) = .ok (w3, Event.umount p :: evs) := by
  simp [umountAll, h1, h2]

/-- C4: `reset` is idempotent.  For every quota value and every world
left by root construction, the very first `reset` with the baseline
snapshot of that world succeeds, a second `reset` succeeds and returns
exactly the same world (the same final mount table and pts directory),
and any number of consecutive calls succeed with that same final
world. -/
theorem reset_idempotent :
    ∀ (q : DiskQuotas) (w0 : World),
      ∃ (w1 : World) (tr1 tr2 : List Event),
        reset (baselineOf w0) q w0 = .ok (w1, baselineOf w0, tr1)
        ∧ reset (baselineOf w0) q w1 = .ok (w1, baselineOf w0, tr2)
        ∧ ∀ n : Nat, resetIter (baselineOf w0) q (n + 1) w0 = .ok w1 := by
  intro q w0
  -- First call: the listing is exactly what the baseline counted, so
  -- nothing is marked.
  have hle1 : ∀ p, countNE p (list_child_mounts "/newroot/" w0) ≤
      (baselineOf w0).mount_points p := by
    intro p
    by_cases hp : excludedFromReset p
    · simp [countNE, hp]
    · simp [countNE, hp, baselineOf]
  have hmark1 : (resetMark (fun p => (baselineOf w0).mount_points p)
      (list_child_mounts "/newroot/" w0)).1 = [] := by
    rw [resetMark_eq_of_le _ _ hle1]
  have hph1 : umountAll w0 ((resetMark (fun p => (baselineOf w0).mount_points p)
      (list_child_mounts "/newroot/" w0)).1).reverse = .ok (w0, []) := by
    rw [hmark1]
    rfl
  have h1 := reset_eq_of_phase1 (q := q) hph1
  -- Second call: the listing is the baseline plus the three fresh
  -- mounts (space, dev/shm, tmp), minus the stale dev/shm and tmp
  -- mounts the first call replaced.
  have hcur2 : list_child_mounts "/newroot/" ⟨resetMounts w0.mounts, ptsClean w0.pts⟩ =
      ((eraseLastTol (eraseLastTol w0.mounts "/newroot/dev/shm") "/newroot/tmp").filter
        (fun p => strStartsWith "/newroot/" p)) ++
      ["/newroot/space", "/newroot/dev/shm", "/newroot/tmp"] := by
    show (resetMounts w0.mounts).filter _ = _
    rw [resetMounts, List.filter_append]
    rfl
  have hsub2 : List.Sublist
      (eraseLastTol (eraseLastTol w0.mounts "/newroot/dev/shm") "/newroot/tmp")
      w0.mounts :=
    (eraseLastTol_sublist _ _).trans (eraseLastTol_sublist _ _)
  have hle2 : ∀ p, countNE p
      ((eraseLastTol (eraseLastTol w0.mounts "/newroot/dev/shm") "/newroot/tmp").filter
        (fun p2 => strStartsWith "/newroot/" p2)) ≤
      (baselineOf w0).mount_points p := by
    intro p
    by_cases hp : excludedFromReset p
    · simp [countNE, hp]
    · rw [countNE, if_neg (by simp [hp])]
      show _ ≤ (list_child_mounts "/newroot/" w0).count p
      exact List.Sublist.count_le (List.Sublist.filter _ hsub2) p
  have hmark2a : resetMark (fun p => (baselineOf w0).mount_points p)
      ((eraseLastTol (eraseLastTol w0.mounts "/newroot/dev/shm") "/newroot/tmp").filter
        (fun p2 => strStartsWith "/newroot/" p2)) =
      ([], fun p => (baselineOf w0).mount_points p - countNE p
        ((eraseLastTol (eraseLastTol w0.mounts "/newroot/dev/shm") "/newroot/tmp").filter
          (fun p2 => strStartsWith "/newroot/" p2))) :=
    resetMark_eq_of_le _ _ hle2
  -- Baseline and remaining-region counts at the three special paths.
  have hBs : (baselineOf w0).mount_points "/newroot/space" =
      w0.mounts.count "/newroot/space" := List.count_filter rfl
  have hBh : (baselineOf w0).mount_points "/newroot/dev/shm" =
      w0.mounts.count "/newroot/dev/shm" := List.count_filter rfl
  have hBt : (baselineOf w0).mount_points "/newroot/tmp" =
      w0.mounts.count "/newroot/tmp" := List.count_filter rfl
  have hregSP : countNE "/newroot/space"
      ((eraseLastTol (eraseLastTol w0.mounts "/newroot/dev/shm") "/newroot/tmp").filter
        (fun p2 => strStartsWith "/newroot/" p2)) =
      w0.mounts.count "/newroot/space" := by
    rw [countNE, if_neg (by decide), List.count_filter rfl,
      count_eraseLastTol_ne (by decide), count_eraseLastTol_ne (by decide)]
  have hregSH : countNE "/newroot/dev/shm"
      ((eraseLastTol (eraseLastTol w0.mounts "/newroot/dev/shm") "/newroot/tmp").filter
        (fun p2 => strStartsWith "/newroot/" p2)) =
      w0.mounts.count "/newroot/dev/shm" - 1 := by
    rw [countNE, if_neg (by decide), List.count_filter rfl,
      count_eraseLastTol_ne (by decide), count_eraseLastTol_self]
  have hregTM : countNE "/newroot/tmp"
      ((eraseLastTol (eraseLastTol w0.mounts "/newroot/dev/shm") "/newroot/tmp").filter
        (fun p2 => strStartsWith "/newroot/" p2)) =
      w0.mounts.count "/newroot/tmp" - 1 := by
    rw [countNE, if_neg (by decide), List.count_filter rfl, count_eraseLastTol_self,
      count_eraseLastTol_ne (by decide)]
  have hcs : (baselineOf w0).mount_points "/newroot/space" - countNE "/newroot/space"
      ((eraseLastTol (eraseLastTol w0.mounts "/newroot/dev/shm") "/newroot/tmp").filter
        (fun p2 => strStartsWith "/newroot/" p2)) = 0 := by
    rw [hBs, hregSP]
    omega
  have h2 : ∃ tr2 : List Event,
      reset (baselineOf w0) q ⟨resetMounts w0.mounts, ptsClean w0.pts⟩ =
        .ok (⟨resetMounts w0.mounts, ptsClean w0.pts⟩, baselineOf w0, tr2) := by
    by_cases hA : w0.mounts.count "/newroot/dev/shm" = 0
    all_goals by_cases hB : w0.mounts.count "/newroot/tmp" = 0
    -- In each case: compute the marked paths, run the unmount phase,
    -- and check the rebuilt world coincides with the first call's.
    · -- dev/shm and tmp were not mounted at construction time
      have hch : (baselineOf w0).mount_points "/newroot/dev/shm" - countNE "/newroot/dev/shm"
          ((eraseLastTol (eraseLastTol w0.mounts "/newroot/dev/shm") "/newroot/tmp").filter
            (fun p2 => strStartsWith "/newroot/" p2)) = 0 := by
        rw [hBh, hregSH, hA]
      have hct : (baselineOf w0).mount_points "/newroot/tmp" - countNE "/newroot/tmp"
          ((eraseLastTol (eraseLastTol w0.mounts "/newroot/dev/shm") "/newroot/tmp").filter
            (fun p2 => strStartsWith "/newroot/" p2)) = 0 := by
        rw [hBt, hregTM, hB]
      have hmark2 : (resetMark (fun p => (baselineOf w0).mount_points p)
          (list_child_mounts "/newroot/" ⟨resetMounts w0.mounts, ptsClean w0.pts⟩)).1 =
          ["/newroot/space", "/newroot/dev/shm", "/newroot/tmp"] := by
        rw [hcur2, resetMark_append, hmark2a]
        simp only [List.nil_append]
        rw [resetMark_tail _ hcs]
        simp [hch, hct]
      have s3 : umountAll
          (⟨eraseLastTol (eraseLastTol w0.mounts "/newroot/dev/shm") "/newroot/tmp" ++
            ["/newroot/space", "/newroot/dev/shm", "/newroot/tmp"], ptsClean w0.pts⟩ : World)
          ["/newroot/tmp", "/newroot/dev/shm", "/newroot/space"] =
          .ok (⟨eraseLastTol (eraseLastTol w0.mounts "/newroot/dev/shm") "/newroot/tmp" ++ [],
              ptsClean w0.pts⟩,
            [Event.umount "/newroot/tmp", Event.umount "/newroot/dev/shm",
             Event.umount "/newroot/space"]) :=
        umountAll_cons_ok (umountSys_append_mem _ _ (by decide))
          (umountAll_cons_ok (umountSys_append_mem _ _ (by decide))
            (umountAll_cons_ok (umountSys_append_mem _ _ (by decide)) rfl))
      have hph2 : umountAll ⟨resetMounts w0.mounts, ptsClean w0.pts⟩
          ((resetMark (fun p => (baselineOf w0).mount_points p)
            (list_child_mounts "/newroot/" ⟨resetMounts w0.mounts, ptsClean w0.pts⟩)).1).reverse =
          .ok (⟨eraseLastTol (eraseLastTol w0.mounts "/newroot/dev/shm") "/newroot/tmp" ++ [],
              ptsClean w0.pts⟩,
            [Event.umount "/newroot/tmp", Event.umount "/newroot/dev/shm",
             Event.umount "/newroot/space"]) := by
        rw [hmark2]
        exact s3
      have hSHm : "/newroot/dev/shm" ∉ w0.mounts := List.count_eq_zero.mp hA
      have hTMm : "/newroot/tmp" ∉ w0.mounts := List.count_eq_zero.mp hB
      have hW : (⟨resetMounts (eraseLastTol (eraseLastTol w0.mounts
              "/newroot/dev/shm") "/newroot/tmp" ++ []),
            ptsClean (ptsClean w0.pts)⟩ : World) =
          ⟨resetMounts w0.mounts, ptsClean w0.pts⟩ := by
        rw [ptsClean_idem, List.append_nil]
        congr 1
        rw [resetMounts, resetMounts]
        rw [eraseLastTol_not_mem (not_mem_eraseLastTol _ (not_mem_eraseLastTol _ hSHm)),
          eraseLastTol_not_mem (not_mem_eraseLastTol _ (not_mem_eraseLastTol _ hTMm))]
      exact ⟨_, by rw [reset_eq_of_phase1 (q := q) hph2, hW]⟩
    · -- dev/shm absent at construction, tmp present
      have hch : (baselineOf w0).mount_points "/newroot/dev/shm" - countNE "/newroot/dev/shm"
          ((eraseLastTol (eraseLastTol w0.mounts "/newroot/dev/shm") "/newroot/tmp").filter
            (fun p2 => strStartsWith "/newroot/" p2)) = 0 := by
        rw [hBh, hregSH, hA]
      have hct : (baselineOf w0).mount_points "/newroot/tmp" - countNE "/newroot/tmp"
          ((eraseLastTol (eraseLastTol w0.mounts "/newroot/dev/shm") "/newroot/tmp").filter
            (fun p2 => strStartsWith "/newroot/" p2)) = 1 := by
        rw [hBt, hregTM]
        omega
      have hmark2 : (resetMark (fun p => (baselineOf w0).mount_points p)
          (list_child_mounts "/newroot/" ⟨resetMounts w0.mounts, ptsClean w0.pts⟩)).1 =
          ["/newroot/space", "/newroot/dev/shm"] := by
        rw [hcur2, resetMark_append, hmark2a]
        simp only [List.nil_append]
        rw [resetMark_tail _ hcs]
        simp [hch, hct]
      have s2 : umountAll
          (⟨eraseLastTol (eraseLastTol w0.mounts "/newroot/dev/shm") "/newroot/tmp" ++
            ["/newroot/space", "/newroot/dev/shm", "/newroot/tmp"], ptsClean w0.pts⟩ : World)
          ["/newroot/dev/shm", "/newroot/space"] =
          .ok (⟨eraseLastTol (eraseLastTol w0.mounts "/newroot/dev/shm") "/newroot/tmp" ++
              ["/newroot/tmp"], ptsClean w0.pts⟩,
            [Event.umount "/newroot/dev/shm", Event.umount "/newroot/space"]) :=
        umountAll_cons_ok (umountSys_append_mem _ _ (by decide))
          (umountAll_cons_ok (umountSys_append_mem _ _ (by decide)) rfl)
      have hph2 : umountAll ⟨resetMounts w0.mounts, ptsClean w0.pts⟩
          ((resetMark (fun p => (baselineOf w0).mount_points p)
            (list_child_mounts "/newroot/" ⟨resetMounts w0.mounts, ptsClean w0.pts⟩)).1).reverse =
          .ok (⟨eraseLastTol (eraseLastTol w0.mounts "/newroot/dev/shm") "/newroot/tmp" ++
              ["/newroot/tmp"], ptsClean w0.pts⟩,
            [Event.umount "/newroot/dev/shm", Event.umount "/newroot/space"]) := by
        rw [hmark2]
        exact s2
      have hSHm : "/newroot/dev/shm" ∉ w0.mounts := List.count_eq_zero.mp hA
      have hW : (⟨resetMounts (eraseLastTol (eraseLastTol w0.mounts
              "/newroot/dev/shm") "/newroot/tmp" ++ ["/newroot/tmp"]),
            ptsClean (ptsClean w0.pts)⟩ : World) =
          ⟨resetMounts w0.mounts, ptsClean w0.pts⟩ := by
        rw [ptsClean_idem]
        congr 1
        rw [resetMounts, resetMounts]
        rw [eraseLastTol_append_left (show ("/newroot/dev/shm" : String) ∉ ["/newroot/tmp"] by decide)]
        rw [eraseLastTol_not_mem (not_mem_eraseLastTol _ (not_mem_eraseLastTol _ hSHm))]
        rw [eraseLastTol_append_right (show ("/newroot/tmp" : String) ∈ ["/newroot/tmp"] by decide)]
        rw [show eraseLastTol ["/newroot/tmp"] "/newroot/tmp" = [] from rfl]
        rw [List.append_nil]
      exact ⟨_, by rw [reset_eq_of_phase1 (q := q) hph2, hW]⟩
    · -- dev/shm present at construction, tmp absent
      have hch : (baselineOf w0).mount_points "/newroot/dev/shm" - countNE "/newroot/dev/shm"
          ((eraseLastTol (eraseLastTol w0.mounts "/newroot/dev/shm") "/newroot/tmp").filter
            (fun p2 => strStartsWith "/newroot/" p2)) = 1 := by
        rw [hBh, hregSH]
        omega
      have hct : (baselineOf w0).mount_points "/newroot/tmp" - countNE "/newroot/tmp"
          ((eraseLastTol (eraseLastTol w0.mounts "/newroot/dev/shm") "/newroot/tmp").filter
            (fun p2 => strStartsWith "/newroot/" p2)) = 0 := by
        rw [hBt, hregTM, hB]
      have hmark2 : (resetMark (fun p => (baselineOf w0).mount_points p)
          (list_child_mounts "/newroot/" ⟨resetMounts w0.mounts, ptsClean w0.pts⟩)).1 =
          ["/newroot/space", "/newroot/tmp"] := by
        rw [hcur2, resetMark_append, hmark2a]
        simp only [List.nil_append]
        rw [resetMark_tail _ hcs]
        simp [hch, hct]
      have s2 : umountAll
          (⟨eraseLastTol (eraseLastTol w0.mounts "/newroot/dev/shm") "/newroot/tmp" ++
            ["/newroot/space", "/newroot/dev/shm", "/newroot/tmp"], ptsClean w0.pts⟩ : World)
          ["/newroot/tmp", "/newroot/space"] =
          .ok (⟨eraseLastTol (eraseLastTol w0.mounts "/newroot/dev/shm") "/newroot/tmp" ++
              ["/newroot/dev/shm"], ptsClean w0.pts⟩,
            [Event.umount "/newroot/tmp", Event.umount "/newroot/space"]) :=
        umountAll_cons_ok (umountSys_append_mem _ _ (by decide))
          (umountAll_cons_ok (umountSys_append_mem _ _ (by decide)) rfl)
      have hph2 : umountAll ⟨resetMounts w0.mounts, ptsClean w0.pts⟩
          ((resetMark (fun p => (baselineOf w0).mount_points p)
            (list_child_mounts "/newroot/" ⟨resetMounts w0.mounts, ptsClean w0.pts⟩)).1).reverse =
          .ok (⟨eraseLastTol (eraseLastTol w0.mounts "/newroot/dev/shm") "/newroot/tmp" ++
              ["/newroot/dev/shm"], ptsClean w0.pts⟩,
            [Event.umount "/newroot/tmp", Event.umount "/newroot/space"]) := by
        rw [hmark2]
        exact s2
      have hTMm : "/newroot/tmp" ∉ w0.mounts := List.count_eq_zero.mp hB
      have hW : (⟨resetMounts (eraseLastTol (eraseLastTol w0.mounts
              "/newroot/dev/shm") "/newroot/tmp" ++ ["/newroot/dev/shm"]),
            ptsClean (ptsClean w0.pts)⟩ : World) =
          ⟨resetMounts w0.mounts, ptsClean w0.pts⟩ := by
        rw [ptsClean_idem]
        congr 1
        rw [resetMounts, resetMounts]
        rw [eraseLastTol_append_right (show ("/newroot/dev/shm" : String) ∈ ["/newroot/dev/shm"] by decide)]
        rw [show eraseLastTol ["/newroot/dev/shm"] "/newroot/dev/shm" = [] from rfl]
        rw [List.append_nil]
        rw [eraseLastTol_not_mem (not_mem_eraseLastTol _ (not_mem_eraseLastTol _ hTMm))]
      exact ⟨_, by rw [reset_eq_of_phase1 (q := q) hph2, hW]⟩
    · -- both dev/shm and tmp present at construction
      have hch : (baselineOf w0).mount_points "/newroot/dev/shm" - countNE "/newroot/dev/shm"
          ((eraseLastTol (eraseLastTol w0.mounts "/newroot/dev/shm") "/newroot/tmp").filter
            (fun p2 => strStartsWith "/newroot/" p2)) = 1 := by
        rw [hBh, hregSH]
        omega
      have hct : (baselineOf w0).mount_points "/newroot/tmp" - countNE "/newroot/tmp"
          ((eraseLastTol (eraseLastTol w0.mounts "/newroot/dev/shm") "/newroot/tmp").filter
            (fun p2 => strStartsWith "/newroot/" p2)) = 1 := by
        rw [hBt, hregTM]
        omega
      have hmark2 : (resetMark (fun p => (baselineOf w0).mount_points p)
          (list_child_mounts "/newroot/" ⟨resetMounts w0.mounts, ptsClean w0.pts⟩)).1 =
          ["/newroot/space"] := by
        rw [hcur2, resetMark_append, hmark2a]
        simp only [List.nil_append]
        rw [resetMark_tail _ hcs]
        simp [hch, hct]
      have s1 : umountAll
          (⟨eraseLastTol (eraseLastTol w0.mounts "/newroot/dev/shm") "/newroot/tmp" ++
            ["/newroot/space", "/newroot/dev/shm", "/newroot/tmp"], ptsClean w0.pts⟩ : World)
          ["/newroot/space"] =
          .ok (⟨eraseLastTol (eraseLastTol w0.mounts "/newroot/dev/shm") "/newroot/tmp" ++
              ["/newroot/dev/shm", "/newroot/tmp"], ptsClean w0.pts⟩,
            [Event.umount "/newroot/space"]) :=
        umountAll_cons_ok (umountSys_append_mem _ _ (by decide)) rfl
      have hph2 : umountAll ⟨resetMounts w0.mounts, ptsClean w0.pts⟩
          ((resetMark (fun p => (baselineOf w0).mount_points p)
            (list_child_mounts "/newroot/" ⟨resetMounts w0.mounts, ptsClean w0.pts⟩)).1).reverse =
          .ok (⟨eraseLastTol (eraseLastTol w0.mounts "/newroot/dev/shm") "/newroot/tmp" ++
              ["/newroot/dev/shm", "/newroot/tmp"], ptsClean w0.pts⟩,
            [Event.umount "/newroot/space"]) := by
        rw [hmark2]
        exact s1
      have hW : (⟨resetMounts (eraseLastTol (eraseLastTol w0.mounts
              "/newroot/dev/shm") "/newroot/tmp" ++ ["/newroot/dev/shm", "/newroot/tmp"]),
            ptsClean (ptsClean w0.pts)⟩ : World) =
          ⟨resetMounts w0.mounts, ptsClean w0.pts⟩ := by
        rw [ptsClean_idem]
        congr 1
        rw [resetMounts, resetMounts]
        rw [eraseLastTol_append_right
          (show ("/newroot/dev/shm" : String) ∈ ["/newroot/dev/shm", "/newroot/tmp"] by decide)]
        rw [show eraseLastTol ["/newroot/dev/shm", "/newroot/tmp"] "/newroot/dev/shm" =
          ["/newroot/tmp"] from rfl]
        rw [eraseLastTol_append_right (show ("/newroot/tmp" : String) ∈ ["/newroot/tmp"] by decide)]
        rw [show eraseLastTol ["/newroot/tmp"] "/newroot/tmp" = [] from rfl]
        rw [List.append_nil]
      exact ⟨_, by rw [reset_eq_of_phase1 (q := q) hph2, hW]⟩
  rcases h2 with ⟨tr2, h2⟩
  refine ⟨⟨resetMounts w0.mounts, ptsClean w0.pts⟩, _, tr2, h1, h2, ?_⟩
  have hiter : ∀ n, resetIter (baselineOf w0) q n
      ⟨resetMounts w0.mounts, ptsClean w0.pts⟩ =
      .ok ⟨resetMounts w0.mounts, ptsClean w0.pts⟩ := by
    intro n
    induction n with
    | zero => rfl
    | succ k ih => simp [resetIter, h2, ih]
  intro n
  simp [resetIter, h1, hiter n]

/-! ### Name decoding (C8) -/

/-- Does this name fail UTF-8 decoding? -/
def isNonUtf8 : FsName → Bool
  | FsName.utf8 _ => false
  | FsName.nonUtf8 _ => true

/-- C8 counterexample: `reset` on a pts directory holding a non-UTF-8
entry succeeds without any name-encoding error and silently keeps the
entry, contradicting the claim that every operation decoding a
filesystem name rejects non-UTF-8 input with a distinct error and never
silently skips such a name. -/
theorem reset_keeps_nonutf8_pts_entry :
    reset ⟨fun _ => 0⟩ ⟨1, 1⟩ ⟨[], [FsName.nonUtf8 [255], FsName.utf8 "0"]⟩ =
      .ok (⟨["/newroot/space", "/newroot/dev/shm", "/newroot/tmp"],
            [FsName.nonUtf8 [255]]⟩,
        ⟨fun _ => 0⟩,
        [Event.mountTmpfs "/newroot/space" "size=1,nr_inodes=1",
         Event.umount "/newroot/dev/shm",
         Event.bindMount "/newroot/space/.shm" "/newroot/dev/shm",
         Event.umount "/newroot/tmp",
         Event.bindMount "/newroot/space/.tmp" "/newroot/tmp"])
  ∧ FsName.nonUtf8 [255] ∈ [FsName.nonUtf8 [255]] :=
  ⟨rfl, by decide⟩

lemma createEntryEvents_utf8_ok (root : String) (e : ImgEntry)
    (h : isNonUtf8 e.name = false) : ∃ evs, createEntryEvents root e = .ok evs := by
  rcases e with ⟨name, kind⟩
  cases name with
  | utf8 s =>
    simp only [createEntryEvents]
    split
    · cases kind
      · exact ⟨_, rfl⟩
      · exact ⟨_, rfl⟩
      · exact ⟨_, rfl⟩
    · exact ⟨[], rfl⟩
  | nonUtf8 bs => simp [isNonUtf8] at h

lemma createEntriesEvents_nonutf8 (root : String) :
    ∀ (entries : List ImgEntry), (∃ e ∈ entries, isNonUtf8 e.name = true) →
      createEntriesEvents root entries = .error CreateError.nameNotUtf8 := by
  intro entries
  induction entries with
  | nil =>
    rintro ⟨e, he, _⟩
    cases he
  | cons a rest ih =>
    rintro ⟨e, he, hne⟩
    by_cases ha : isNonUtf8 a.name = true
    · rcases a with ⟨name, kind⟩
      cases name with
      | utf8 s => simp [isNonUtf8] at ha
      | nonUtf8 bs => simp [createEntriesEvents, createEntryEvents]
    · have hee : e ∈ rest := by
        rcases List.mem_cons.mp he with he | he
        · subst he; exact absurd hne ha
        · exact he
      rcases createEntryEvents_utf8_ok root a (by simpa using ha) with ⟨evs, hevs⟩
      simp only [createEntriesEvents, hevs, ih ⟨e, hee, hne⟩]

/-- C8 amended: `create_rootfs` rejects non-UTF-8 names with a distinct
name-encoding error, but `reset`'s pseudoterminal cleanup silently
skips (keeps, without error) entries whose names fail UTF-8 decoding. -/
theorem name_decoding_amended :
    (∀ (root : String) (entries : List ImgEntry),
        (∃ e ∈ entries, isNonUtf8 e.name = true) →
        create_rootfs root entries = .error CreateError.nameNotUtf8)
  ∧ (∀ (st : RootfsState) (q : DiskQuotas) (w : World)
        (r : World × RootfsState × List Event),
        reset st q w = .ok r → r.1.pts = ptsClean w.pts)
  ∧ (∀ (bs : List Nat) (pts : List FsName),
        FsName.nonUtf8 bs ∈ pts → FsName.nonUtf8 bs ∈ ptsClean pts) := by
  refine ⟨?_, ?_, ?_⟩
  · intro root entries h
    rw [create_rootfs, createEntriesEvents_nonutf8 root entries h]
  · intro st q w r h
    simp only [reset] at h
    split at h
    next e hu => cases h
    next w1 ev1 hu =>
      simp only [remountPublic_eq] at h
      cases h
      rcases umountAll_ok hu with ⟨_, hp⟩
      have hp2 : (mountOn w1 "/newroot/space").pts = w.pts := hp
      show ptsClean (mountOn w1 "/newroot/space").pts = ptsClean w.pts
      rw [hp2]
  · intro bs pts h
    rw [ptsClean]
    exact List.mem_filter.mpr ⟨h, rfl⟩

/-- Witness for the amended C8 at concrete inputs. -/
theorem name_decoding_amended_witness :
    create_rootfs "/image" [⟨FsName.nonUtf8 [200], EntryKind.dir⟩] =
      .error CreateError.nameNotUtf8
  ∧ FsName.nonUtf8 [200] ∈ ptsClean [FsName.nonUtf8 [200]] := by
  constructor
  · exact name_decoding_amended.1 "/image" [⟨FsName.nonUtf8 [200], EntryKind.dir⟩]
      ⟨⟨FsName.nonUtf8 [200], EntryKind.dir⟩, by decide, by decide⟩
  · exact name_decoding_amended.2.2 [200] [FsName.nonUtf8 [200]] (by decide)

/-! ### The construction example (C5) -/

/-- The source image of the spec's construction example. -/
def exampleImage : List ImgEntry :=
  [⟨FsName.utf8 "bin", EntryKind.dir⟩, ⟨FsName.utf8 "lib", EntryKind.dir⟩,
   ⟨FsName.utf8 "init", EntryKind.symlink "/bin/init"⟩,
   ⟨FsName.utf8 "sys", EntryKind.dir⟩]

/-- The syscall trace `create_rootfs` produces on `exampleImage`. -/
def exampleTrace : List Event :=
  [Event.mkdir "/newroot",
   Event.mkdir "/newroot/bin", Event.bindMount "/image/bin" "/newroot/bin",
   Event.remountRO "/newroot/bin",
   Event.mkdir "/newroot/lib", Event.bindMount "/image/lib" "/newroot/lib",
   Event.remountRO "/newroot/lib",
   Event.symlink "/bin/init" "/newroot/init",
   Event.mkdir "/newroot/space", Event.mkdir "/newroot/dev",
   Event.mkdir "/newroot/proc", Event.mkdir "/newroot/tmp",
   Event.bindMountRec "/dev" "/newroot/dev", Event.remountRO "/newroot/dev"]

/-- C5: on a source image with top level `bin/` (dir), `lib/` (dir),
`init -> /bin/init` (symlink) and `sys/` (dir), construction bind-mounts
`bin` and `lib` read-only, recreates `init` as a literal symlink with
the same target (never mounting anything onto it), and creates no
`sys` entry at all. -/
theorem create_rootfs_blend :
    create_rootfs "/image" exampleImage = .ok exampleTrace
  ∧ Event.bindMount "/image/bin" "/newroot/bin" ∈ exampleTrace
  ∧ Event.remountRO "/newroot/bin" ∈ exampleTrace
  ∧ Event.bindMount "/image/lib" "/newroot/lib" ∈ exampleTrace
  ∧ Event.remountRO "/newroot/lib" ∈ exampleTrace
  ∧ Event.symlink "/bin/init" "/newroot/init" ∈ exampleTrace
  ∧ exampleTrace.all (fun e => !(mountsOnto "/newroot/init" e)) = true
  ∧ exampleTrace.all (fun e => !(eventTouches "/newroot/sys" e)) = true :=
  ⟨rfl, by decide, by decide, by decide, by decide, by decide, by decide, by decide⟩

end SunwalkerRootfs
